import Mathlib

/-!
Verification of the PII-masking engine of `pkg/toolsets/core/pii.go`.

Text is modelled as `List Char` (a Go string viewed as its sequence of
Unicode code points, which is exactly the granularity at which
`utf8.RuneCountInString` and the `regexp` rune-based matching operate).
Each regular expression of `simplePatterns` is translated into an
executable matcher that, given the character preceding the current
position (needed for the ASCII word-boundary assertion of RE2) and the
suffix of the text starting at the current position, returns the rest of
the text after the match, or `none` when the pattern does not match at
this position.  The matchers implement the leftmost-first, greedy,
backtracking semantics that Go's `regexp` package (non-POSIX mode) uses,
with the quantifier alternatives tried in the documented preference
order.  `replaceAll` then mirrors `Regexp.ReplaceAllStringFunc` with the
replacement `maskRunes`: it scans left to right, replaces every
non-overlapping leftmost match, and resumes immediately after each match.
-/

/-- Character classes of the RE2 patterns, decided on code points.
`\s` in RE2 is the ASCII class `[\t\n\f\r ]`. -/
def isSpaceRE (c : Char) : Bool :=
  decide (c = '\t' ∨ c = '\n' ∨ c = '\x0C' ∨ c = '\r' ∨ c = ' ')

/-- `\d` : ASCII digits `0`-`9`. -/
def isDigitRE (c : Char) : Bool := decide (48 ≤ c.toNat ∧ c.toNat ≤ 57)

/-- `[A-Z]`. -/
def isUpperRE (c : Char) : Bool := decide (65 ≤ c.toNat ∧ c.toNat ≤ 90)

/-- `[a-z]`. -/
def isLowerRE (c : Char) : Bool := decide (97 ≤ c.toNat ∧ c.toNat ≤ 122)

/-- `[A-Za-z]`. -/
def isAlphaRE (c : Char) : Bool := isUpperRE c || isLowerRE c

/-- Word characters of RE2's `\b` assertion: `[0-9A-Za-z_]`. -/
def isWordRE (c : Char) : Bool := isDigitRE c || isAlphaRE c || decide (c = '_')

/-- `[A-Za-z0-9_\-]` : the base64url alphabet of the JWT pattern. -/
def isB64Ch (c : Char) : Bool :=
  isAlphaRE c || isDigitRE c || decide (c = '_' ∨ c = '-')

/-- `[A-Za-z0-9._%+\-]` : the local part of the e-mail pattern. -/
def isLocalCh (c : Char) : Bool :=
  isAlphaRE c || isDigitRE c || decide (c = '.' ∨ c = '_' ∨ c = '%' ∨ c = '+' ∨ c = '-')

/-- `[A-Za-z0-9.\-]` : the domain part of the e-mail pattern. -/
def isDomainCh (c : Char) : Bool :=
  isAlphaRE c || isDigitRE c || decide (c = '.' ∨ c = '-')

/-- `[-\s]` : the optional separator of the phone patterns. -/
def isDashSpace (c : Char) : Bool := decide (c = '-') || isSpaceRE c

/-- `[ -]` : the optional separator of the credit-card pattern. -/
def isCardSep (c : Char) : Bool := decide (c = ' ' ∨ c = '-')

/-- `[\x{4E00}-\x{9FFF}]` : the CJK ideograph range of the name pattern. -/
def isCJKch (c : Char) : Bool := decide (19968 ≤ c.toNat ∧ c.toNat ≤ 40959)

/-- ASCII lower-casing, the case folding relevant to `(?i)Bearer`
(the letters of `Bearer` have no non-ASCII simple case foldings). -/
def lowerAscii (c : Char) : Char :=
  if 65 ≤ c.toNat ∧ c.toNat ≤ 90 then Char.ofNat (c.toNat + 32) else c

/-- Word-ness of an optional character; positions outside the text count
as non-word for `\b`. -/
def wordB : Option Char → Bool
  | none => false
  | some c => isWordRE c

/-- RE2's `\b`: the two sides disagree on word-ness. -/
def isBnd (a b : Option Char) : Bool := wordB a != wordB b

/-- `\b` placed directly after a word character: holds iff the next
character is absent or a non-word character.  (Every trailing `\b` in
the patterns below follows a digit or a letter.) -/
def endWordBnd (r : List Char) : Bool := !(wordB r.head?)

/-- Consume one character of class `p`. -/
def dropCls (p : Char → Bool) : List Char → Option (List Char)
  | [] => none
  | c :: r => if p c then some r else none

/-- Consume one literal character. -/
def dropLit (a : Char) : List Char → Option (List Char)
  | [] => none
  | c :: r => if c = a then some r else none

/-- Consume a literal string. -/
def dropPfx : List Char → List Char → Option (List Char)
  | [], s => some s
  | _ :: _, [] => none
  | a :: as, c :: r => if c = a then dropPfx as r else none

/-- Consume a literal string up to ASCII case. -/
def dropPfxCI : List Char → List Char → Option (List Char)
  | [], s => some s
  | _ :: _, [] => none
  | a :: as, c :: r => if lowerAscii c = a then dropPfxCI as r else none

/-- Consume exactly `n` characters of class `p`. -/
def dropNCls (p : Char → Bool) : Nat → List Char → Option (List Char)
  | 0, s => some s
  | _ + 1, [] => none
  | n + 1, c :: r => if p c then dropNCls p n r else none

/-- The letters of the case-insensitive literal `Bearer`. -/
def bearerKw : List Char := ['b', 'e', 'a', 'r', 'e', 'r']

/-- `(?i)Bearer\s+\S+` : Bearer / Authorization tokens.  `\s+` and `\S+`
have disjoint alphabets, so both greedy runs are maximal with no
backtracking. -/
def bearerRest (_ : Option Char) (s : List Char) : Option (List Char) :=
  (dropPfxCI bearerKw s).bind fun r1 =>
    let w := (r1.takeWhile isSpaceRE).length
    let r2 := r1.dropWhile isSpaceRE
    if w = 0 then none
    else
      let t := (r2.takeWhile fun c => !isSpaceRE c).length
      let r3 := r2.dropWhile fun c => !isSpaceRE c
      if t = 0 then none else some r3

/-- `eyJ[A-Za-z0-9_\-]+\.[A-Za-z0-9_\-]+\.[A-Za-z0-9_\-]*` : standalone
JWT tokens.  `.` is not in the base64url class, so the greedy runs are
maximal with no backtracking. -/
def jwtRest (_ : Option Char) (s : List Char) : Option (List Char) :=
  (dropPfx ['e', 'y', 'J'] s).bind fun r1 =>
    let a := (r1.takeWhile isB64Ch).length
    let r2 := r1.dropWhile isB64Ch
    if a = 0 then none
    else
      (dropLit '.' r2).bind fun r3 =>
        let b := (r3.takeWhile isB64Ch).length
        let r4 := r3.dropWhile isB64Ch
        if b = 0 then none
        else (dropLit '.' r4).bind fun r5 => some (r5.dropWhile isB64Ch)

/-- `\b[A-Z][12]\d{8}\b` : Taiwan national ID. -/
def natIdRest (prev : Option Char) (s : List Char) : Option (List Char) :=
  if isBnd prev s.head? then
    (dropCls isUpperRE s).bind fun r1 =>
      (dropCls (fun c => decide (c = '1' ∨ c = '2')) r1).bind fun r2 =>
        (dropNCls isDigitRE 8 r2).bind fun r3 =>
          if endWordBnd r3 then some r3 else none
  else none

/-- One backtracking step of `[A-Za-z0-9.\-]+\.[A-Za-z]{2,}\b`: the
domain `+` keeps `d` characters, the character at index `d` of the run
must be the literal dot, and the trailing `[A-Za-z]{2,}\b` forces the
maximal letter run (shortening it would put a letter after the run and
violate `\b`). -/
def emailTryDot (r2 : List Char) (d : Nat) : Option (List Char) :=
  if r2.get? d = some '.' then
    let tail := r2.drop (d + 1)
    let lr := (tail.takeWhile isAlphaRE).length
    let r4 := tail.dropWhile isAlphaRE
    if 2 ≤ lr ∧ endWordBnd r4 then some r4 else none
  else none

/-- Backtracking search over the split point `d`, largest first (the
greedy `+` prefers the longest domain part; `d = run length` itself is
impossible because the character ending the maximal run is not a dot). -/
def emailSearch (r2 : List Char) : Nat → Option (List Char)
  | 0 => none
  | d + 1 => (emailTryDot r2 (d + 1)).orElse fun _ => emailSearch r2 d

/-- `\b[A-Za-z0-9._%+\-]+@[A-Za-z0-9.\-]+\.[A-Za-z]{2,}\b` : e-mail
addresses.  `@` is not in the local class, so the local `+` is maximal. -/
def emailRest (prev : Option Char) (s : List Char) : Option (List Char) :=
  if isBnd prev s.head? then
    let l := (s.takeWhile isLocalCh).length
    let r1 := s.dropWhile isLocalCh
    if l = 0 then none
    else
      (dropLit '@' r1).bind fun r2 =>
        let m := (r2.takeWhile isDomainCh).length
        emailSearch r2 (m - 1)
  else none

/-- `\d{3}\b`, the last group of the mobile pattern. -/
def mobGrp3 (r : List Char) : Option (List Char) :=
  (dropNCls isDigitRE 3 r).bind fun r' => if endWordBnd r' then some r' else none

/-- `[-\s]?\d{3}\b` with the greedy `?` trying the separator first. -/
def mobTail (r : List Char) : Option (List Char) :=
  ((dropCls isDashSpace r).bind mobGrp3).orElse fun _ => mobGrp3 r

/-- `[-\s]?\d{3}` followed by `mobTail`, full backtracking over the `?`. -/
def mobMid (r : List Char) : Option (List Char) :=
  ((dropCls isDashSpace r).bind fun r' =>
      (dropNCls isDigitRE 3 r').bind mobTail).orElse fun _ =>
    (dropNCls isDigitRE 3 r).bind mobTail

/-- `\b09\d{2}[-\s]?\d{3}[-\s]?\d{3}\b` : Taiwan mobile numbers. -/
def mobileRest (prev : Option Char) (s : List Char) : Option (List Char) :=
  if isBnd prev s.head? then
    (dropPfx ['0', '9'] s).bind fun r1 => (dropNCls isDigitRE 2 r1).bind mobMid
  else none

/-- Final `\d{3,4}` of the parenthesised-landline pattern (greedy: four
digits preferred, no trailing assertion). -/
def parenFinal (r : List Char) : Option (List Char) :=
  (dropNCls isDigitRE 4 r).orElse fun _ => dropNCls isDigitRE 3 r

/-- `[-\s]?` then the final group. -/
def parenSepG (r : List Char) : Option (List Char) :=
  ((dropCls isDashSpace r).bind parenFinal).orElse fun _ => parenFinal r

/-- First `\d{3,4}` then separator and final group. -/
def parenMid (r : List Char) : Option (List Char) :=
  ((dropNCls isDigitRE 4 r).bind parenSepG).orElse fun _ =>
    (dropNCls isDigitRE 3 r).bind parenSepG

/-- `\s?` after the closing parenthesis. -/
def parenWs (r : List Char) : Option (List Char) :=
  ((dropCls isSpaceRE r).bind parenMid).orElse fun _ => parenMid r

/-- `\)` then the rest. -/
def parenAfter (r : List Char) : Option (List Char) :=
  (dropLit ')' r).bind parenWs

/-- `\d{1,3}\)` -- the area code digits, greedy, three preferred. -/
def parenArea (r : List Char) : Option (List Char) :=
  ((dropNCls isDigitRE 3 r).bind parenAfter).orElse fun _ =>
    ((dropNCls isDigitRE 2 r).bind parenAfter).orElse fun _ =>
      (dropNCls isDigitRE 1 r).bind parenAfter

/-- `\(0\d{1,3}\)\s?\d{3,4}[-\s]?\d{3,4}` : landline with parenthesised
area code. -/
def parenRest (_ : Option Char) (s : List Char) : Option (List Char) :=
  (dropLit '(' s).bind fun r1 => (dropLit '0' r1).bind parenArea

/-- `\d{3,4}\b`, last group of the dashed-landline pattern, greedy. -/
def dashFinal (r : List Char) : Option (List Char) :=
  ((dropNCls isDigitRE 4 r).bind fun r' =>
      if endWordBnd r' then some r' else none).orElse fun _ =>
    (dropNCls isDigitRE 3 r).bind fun r' =>
      if endWordBnd r' then some r' else none

/-- `-?` then the last group. -/
def dashOptG (r : List Char) : Option (List Char) :=
  ((dropLit '-' r).bind dashFinal).orElse fun _ => dashFinal r

/-- First `\d{3,4}` then `-?\d{3,4}\b`. -/
def dashMid (r : List Char) : Option (List Char) :=
  ((dropNCls isDigitRE 4 r).bind dashOptG).orElse fun _ =>
    (dropNCls isDigitRE 3 r).bind dashOptG

/-- `\d{1,3}-` -- the area-code digits after the leading `0`, greedy. -/
def dashArea (r : List Char) : Option (List Char) :=
  ((dropNCls isDigitRE 3 r).bind fun r' => (dropLit '-' r').bind dashMid).orElse fun _ =>
    ((dropNCls isDigitRE 2 r).bind fun r' => (dropLit '-' r').bind dashMid).orElse fun _ =>
      (dropNCls isDigitRE 1 r).bind fun r' => (dropLit '-' r').bind dashMid

/-- `\b0\d{1,3}-\d{3,4}-?\d{3,4}\b` : landline with dash separator. -/
def dashRest (prev : Option Char) (s : List Char) : Option (List Char) :=
  if isBnd prev s.head? then (dropLit '0' s).bind dashArea else none

/-- The length of `dropWhile` never exceeds the length of the list. -/
theorem dropWhile_len_le (p : Char → Bool) (l : List Char) :
    (l.dropWhile p).length ≤ l.length := by
  conv_rhs => rw [← List.takeWhile_append_dropWhile p l]
  rw [List.length_append]
  omega

/-- The greedy `(?:-\d+)*` of the address pattern: keep consuming a dash
followed by a maximal nonempty digit run.  The unit markers are CJK
characters, never digits or dashes, so backtracking into the star or the
inner `\d+` can never produce a match and the greedy result is final.
The recursion is driven by a fuel argument so that it is structural;
each step consumes at least two characters, so fuel equal to the length
of the list (supplied by `addrIter`) can never run out. -/
def addrIterF : Nat → List Char → List Char
  | 0, s => s
  | fuel + 1, s =>
    match s with
    | '-' :: r =>
      let k := (r.takeWhile isDigitRE).length
      if k = 0 then s else addrIterF fuel (r.dropWhile isDigitRE)
    | _ => s

/-- `(?:-\d+)*` with sufficient fuel. -/
def addrIter (s : List Char) : List Char := addrIterF s.length s

/-- `(?:號|樓|室|之\d+)` : the unit-marker alternation. -/
def addrMarker : List Char → Option (List Char)
  | c :: r =>
    if decide (c = '號' ∨ c = '樓' ∨ c = '室') then some r
    else if c = '之' then
      let k := (r.takeWhile isDigitRE).length
      if k = 0 then none else some (r.dropWhile isDigitRE)
    else none
  | [] => none

/-- `\d+(?:-\d+)*(?:號|樓|室|之\d+)` : address unit numbers. -/
def addrRest (_ : Option Char) (s : List Char) : Option (List Char) :=
  let a := (s.takeWhile isDigitRE).length
  if a = 0 then none else addrMarker (addrIter (s.dropWhile isDigitRE))

/-- `\d{1,4}\b`, the greedy last group of the card pattern. -/
def cardFinal (r : List Char) : Option (List Char) :=
  ((dropNCls isDigitRE 4 r).bind fun r' =>
      if endWordBnd r' then some r' else none).orElse fun _ =>
    ((dropNCls isDigitRE 3 r).bind fun r' =>
        if endWordBnd r' then some r' else none).orElse fun _ =>
      ((dropNCls isDigitRE 2 r).bind fun r' =>
          if endWordBnd r' then some r' else none).orElse fun _ =>
        (dropNCls isDigitRE 1 r).bind fun r' =>
          if endWordBnd r' then some r' else none

/-- `[ -]?` before the last group. -/
def cardSep3 (r : List Char) : Option (List Char) :=
  ((dropCls isCardSep r).bind cardFinal).orElse fun _ => cardFinal r

/-- Third `\d{4}`. -/
def cardG3 (r : List Char) : Option (List Char) :=
  (dropNCls isDigitRE 4 r).bind cardSep3

/-- `[ -]?` before the third group. -/
def cardSep2 (r : List Char) : Option (List Char) :=
  ((dropCls isCardSep r).bind cardG3).orElse fun _ => cardG3 r

/-- Second `\d{4}`. -/
def cardG2 (r : List Char) : Option (List Char) :=
  (dropNCls isDigitRE 4 r).bind cardSep2

/-- `[ -]?` before the second group. -/
def cardSep1 (r : List Char) : Option (List Char) :=
  ((dropCls isCardSep r).bind cardG2).orElse fun _ => cardG2 r

/-- `\b\d{4}[ -]?\d{4}[ -]?\d{4}[ -]?\d{1,4}\b` : credit-card numbers. -/
def cardRest (prev : Option Char) (s : List Char) : Option (List Char) :=
  if isBnd prev s.head? then (dropNCls isDigitRE 4 s).bind cardSep1 else none

/-- `strings.Repeat("*", utf8.RuneCountInString(s))` : a run of the mask
character with the code-point count of `s`. -/
def maskRunes (s : List Char) : List Char := List.replicate s.length '*'

/-- `Regexp.ReplaceAllStringFunc text maskRunes` for a whole-match rule:
scan left to right, at each position try the matcher (which gets the
previous character of the original text for `\b`), replace a match by
`maskRunes` of the matched span and resume after it.  No pattern of the
rule set matches the empty string, so the zero-width guard is
unreachable; it mirrors Go's copy-one-rune-and-advance behaviour. -/
def replaceAllF (m : Option Char → List Char → Option (List Char)) :
    Nat → Option Char → List Char → List Char
  | 0, _, s => s
  | _ + 1, _, [] => []
  | fuel + 1, prev, c :: rest =>
    match m prev (c :: rest) with
    | none => c :: replaceAllF m fuel (some c) rest
    | some r =>
      let n := (c :: rest).length - r.length
      if n = 0 then c :: replaceAllF m fuel (some c) rest
      else
        maskRunes ((c :: rest).take n) ++
          replaceAllF m fuel ((c :: rest).take n).getLast? ((c :: rest).drop n)

/-- `ReplaceAllStringFunc` with fuel equal to the text length; every step
consumes at least one character, so the fuel never runs out. -/
def replaceAll (m : Option Char → List Char → Option (List Char))
    (prev : Option Char) (s : List Char) : List Char :=
  replaceAllF m s.length prev s

/-- The ordered whole-match rule set of `simplePatterns`. -/
def simplePatterns : List (Option Char → List Char → Option (List Char)) :=
  [bearerRest, jwtRest, natIdRest, emailRest, mobileRest, parenRest,
    dashRest, addrRest, cardRest]

/-- The `for _, p := range simplePatterns` loop of `MaskPII`: one full
`ReplaceAllStringFunc` pass per rule, in order. -/
def runSimple (rules : List (Option Char → List Char → Option (List Char)))
    (t : List Char) : List Char :=
  rules.foldl (fun txt p => replaceAll p none txt) t

/-- The keyword alternation `(?:姓名|申請人|使用者|客戶|名字)`, alternatives
tried in the written order (their first characters are pairwise distinct,
so the alternation is deterministic). -/
def kwAlt (s : List Char) : Option (List Char) :=
  (dropPfx ['姓', '名'] s).orElse fun _ =>
    (dropPfx ['申', '請', '人'] s).orElse fun _ =>
      (dropPfx ['使', '用', '者'] s).orElse fun _ =>
        (dropPfx ['客', '戶'] s).orElse fun _ => dropPfx ['名', '字'] s

/-- `((?:姓名|申請人|使用者|客戶|名字)[：:]\s*)([\x{4E00}-\x{9FFF}]{2,4})` :
returns the length of capture group 1 (keyword, separator and spaces)
and of capture group 2 (the 2-4 ideograph name, greedy).  `\s*` and the
ideograph class are disjoint, so both runs are maximal. -/
def nameMatch (s : List Char) : Option (Nat × Nat) :=
  (kwAlt s).bind fun r1 =>
    (dropCls (fun c => decide (c = '：' ∨ c = ':')) r1).bind fun r2 =>
      let w := (r2.takeWhile isSpaceRE).length
      let r3 := r2.dropWhile isSpaceRE
      let n := (r3.takeWhile isCJKch).length
      if n < 2 then none
      else some ((s.length - r2.length) + w, min n 4)

/-- The replacement closure passed to `ReplaceAllStringFunc` for the name
pattern: re-run the pattern on the matched text to obtain the submatches
and return `subs[1] + maskRunes(subs[2])`; if the match cannot be
decomposed (`len(subs) < 3`), defensively mask the whole match. -/
def nameRepl (matched : List Char) : List Char :=
  match nameMatch matched with
  | some (p, m) => matched.take p ++ maskRunes ((matched.drop p).take m)
  | none => maskRunes matched

/-- `namePattern.ReplaceAllStringFunc` with the replacement above,
fuel-structural like `replaceAllF`. -/
def replaceNameF : Nat → List Char → List Char
  | 0, s => s
  | _ + 1, [] => []
  | fuel + 1, c :: rest =>
    match nameMatch (c :: rest) with
    | none => c :: replaceNameF fuel rest
    | some (p, m) =>
      if p + m = 0 then c :: replaceNameF fuel rest
      else nameRepl ((c :: rest).take (p + m)) ++ replaceNameF fuel ((c :: rest).drop (p + m))

/-- The name pass with sufficient fuel. -/
def replaceName (s : List Char) : List Char := replaceNameF s.length s

/-- `MaskPII` on code-point sequences: the nine whole-match passes in
order, then the anchored-capture name pass. -/
def maskPIIList (t : List Char) : List Char :=
  replaceName (runSimple simplePatterns t)

/-- `MaskPII` of `pii.go`. -/
def MaskPII (text : String) : String := ⟨maskPIIList text.data⟩

/-! ## Concrete executions used by the claims -/

set_option maxRecDepth 10000

/-- The whole-match rules with the address rule (rule 8) moved before the
mobile-phone rule (rule 5): a permutation of the relative order of rules
3-9 that keeps the Bearer and JWT rules first. -/
def addrBeforeMobile : List (Option Char → List Char → Option (List Char)) :=
  [bearerRest, jwtRest, natIdRest, emailRest, addrRest, mobileRest, parenRest,
    dashRest, cardRest]

/-- The full pipeline over an arbitrary whole-match rule order. -/
def maskPIIWith (rules : List (Option Char → List Char → Option (List Char)))
    (t : List Char) : List Char :=
  replaceName (runSimple rules t)

/-- C3 (counterexample): the whole-match rules 3-9 are *not*
order-independent.  On `"0912345678號"` the fixed order lets the mobile
rule mask the ten digits first (the address rule then finds no digits and
`號` survives), while running the address rule before the mobile rule
masks the whole eleven-code-point span `0912345678號`.  The two final
outputs differ, refuting the claimed permutation-invariance (and the
claimed non-overlap: both rules match the same digit run). -/
theorem rules_not_order_independent :
    maskPIIWith addrBeforeMobile "0912345678號".data ≠
      maskPIIWith simplePatterns "0912345678號".data := by
  decide

/-- C3 (amended): rules 3-9 can overlap and their relative order is
significant.  Concretely, with the code's fixed order the mobile rule
masks the ten digits of `"0912345678號"` and the address marker `號`
survives, whereas with the address rule moved before the mobile rule the
address rule masks all eleven code points. -/
theorem rules_order_significant :
    maskPIIWith simplePatterns "0912345678號".data = ("**********號").data ∧
      maskPIIWith addrBeforeMobile "0912345678號".data = ("***********").data := by
  decide

/-- C4 (counterexample): `MaskPII` is *not* idempotent, so its output is
not always a fixed point.  For the input `"3之4K123456789"` the address
rule masks `3之4`, producing `"***K123456789"` (the national-ID rule
cannot fire in the first application because `4` is a word character, so
`\b` fails before `K`).  Applying `MaskPII` to that output masks
`K123456789`, because the mask character `*` is a non-word character and
now creates the word boundary the national-ID rule needs. -/
theorem maskPII_not_idempotent :
    MaskPII (MaskPII "3之4K123456789") ≠ MaskPII "3之4K123456789" := by
  decide

/-- C5: name masking is anchored to recognized keywords.
`姓名：歐美` keeps the keyword and separator and masks the two-ideograph
name; `申請人：歐美麗` keeps the keyword and masks the three-ideograph
name; CJK text without a recognized keyword is untouched. -/
theorem keyword_anchoring_exact_cases :
    MaskPII "姓名：歐美" = "姓名：**" ∧
      MaskPII "申請人：歐美麗" = "申請人：***" ∧
        MaskPII "台北市中正區忠孝東路" = "台北市中正區忠孝東路" := by
  decide

/-- C6: exact per-rule cases.  The e-mail rule masks the 16 code points
of `user@example.com`, the mobile rule the 10 digits of `0912345678`,
and the parenthesised-landline rule the 13 code points of
`(02)1234-5678`; the prefixes `Email: `, `Phone: `, `Tel: ` survive. -/
theorem email_phone_landline_exact_cases :
    MaskPII "Email: user@example.com" = "Email: ****************" ∧
      MaskPII "Phone: 0912345678" = "Phone: **********" ∧
        MaskPII "Tel: (02)1234-5678" = "Tel: *************" := by
  decide

/-- C7: multiple independent matches of one pass are masked separately:
in `地址：忠孝東路3號5樓` the address rule masks `3號` and `5樓` as two
two-code-point runs and preserves `地址：忠孝東路` verbatim. -/
theorem address_multiple_matches :
    MaskPII "地址：忠孝東路3號5樓" = "地址：忠孝東路****" := by
  decide

/-- C9: `MaskPII` is a total Lean function (it is defined for every
string and has no error channel by construction); the empty string maps
to the empty string and PII-free text is returned unchanged. -/
theorem maskPII_total_passthrough :
    MaskPII "" = "" ∧
      MaskPII "Pod started successfully on node worker-1" =
        "Pod started successfully on node worker-1" := by
  decide
/-! ## Generic properties of the replace-all scan -/

/-- A whole-match pass never changes the code-point count of the text:
each match of `n` code points is replaced by `n` mask characters. -/
theorem replaceAllF_length (m : Option Char → List Char → Option (List Char)) :
    ∀ (fuel : Nat) (pv : Option Char) (s : List Char), s.length ≤ fuel →
      (replaceAllF m fuel pv s).length = s.length := by
  intro fuel
  induction fuel with
  | zero => intro pv s _; rfl
  | succ f ih =>
    intro pv s hs
    match s with
    | [] => rfl
    | c :: rest =>
      cases hm : m pv (c :: rest) with
      | none =>
        simp only [replaceAllF, hm, List.length_cons]
        rw [ih (some c) rest (by simp only [List.length_cons] at hs; omega)]
      | some r =>
        simp only [replaceAllF, hm]
        by_cases hn : (c :: rest).length - r.length = 0
        · rw [if_pos hn]
          simp only [List.length_cons]
          rw [ih (some c) rest (by simp only [List.length_cons] at hs; omega)]
        · rw [if_neg hn]
          rw [List.length_append]
          rw [ih _ _ (by simp only [List.length_drop, List.length_cons] at *; omega)]
          simp only [maskRunes, List.length_replicate, List.length_take,
            List.length_drop, List.length_cons] at *
          omega

/-- `replaceAll` preserves length. -/
theorem replaceAll_length (m : Option Char → List Char → Option (List Char))
    (pv : Option Char) (s : List Char) :
    (replaceAll m pv s).length = s.length :=
  replaceAllF_length m s.length pv s (Nat.le_refl _)

/-- A whole-match pass never unmasks: a position holding the mask
character before the pass still holds it afterwards (replacements only
write mask characters, and copied characters are unchanged). -/
theorem replaceAllF_star (m : Option Char → List Char → Option (List Char)) :
    ∀ (fuel : Nat) (pv : Option Char) (s : List Char) (j : Nat), s.length ≤ fuel →
      s[j]? = some '*' → (replaceAllF m fuel pv s)[j]? = some '*' := by
  intro fuel
  induction fuel with
  | zero => intro pv s j _ hj; exact hj
  | succ f ih =>
    intro pv s j hs hj
    match s with
    | [] => exact hj
    | c :: rest =>
      cases hm : m pv (c :: rest) with
      | none =>
        simp only [replaceAllF, hm]
        match j with
        | 0 => simpa using hj
        | j + 1 =>
          simp only [List.getElem?_cons_succ] at hj ⊢
          exact ih (some c) rest j (by simp only [List.length_cons] at hs; omega) hj
      | some r =>
        simp only [replaceAllF, hm]
        by_cases hn : (c :: rest).length - r.length = 0
        · rw [if_pos hn]
          match j with
          | 0 => simpa using hj
          | j + 1 =>
            simp only [List.getElem?_cons_succ] at hj ⊢
            exact ih (some c) rest j (by simp only [List.length_cons] at hs; omega) hj
        · rw [if_neg hn]
          have hnlen : (c :: rest).length - r.length ≤ (c :: rest).length := Nat.sub_le _ _
          have hmask : (maskRunes ((c :: rest).take ((c :: rest).length - r.length))).length
              = (c :: rest).length - r.length := by
            simp only [maskRunes, List.length_replicate, List.length_take]
            omega
          by_cases hjn : j < (c :: rest).length - r.length
          · rw [List.getElem?_append_left (by omega)]
            simp only [maskRunes]
            rw [List.getElem?_replicate_of_lt (by simp only [List.length_take]; omega)]
          · rw [List.getElem?_append_right (by omega)]
            rw [hmask]
            have hdrop : ((c :: rest).drop ((c :: rest).length - r.length))[j - ((c :: rest).length - r.length)]?
                = some '*' := by
              rw [List.getElem?_drop]
              rw [Nat.add_sub_cancel' (by omega)]
              exact hj
            exact ih _ _ _
              (by simp only [List.length_drop, List.length_cons] at *; omega) hdrop

/-- `replaceAll` never unmasks. -/
theorem replaceAll_star (m : Option Char → List Char → Option (List Char))
    (pv : Option Char) (s : List Char) (j : Nat) (hj : s[j]? = some '*') :
    (replaceAll m pv s)[j]? = some '*' :=
  replaceAllF_star m s.length pv s j (Nat.le_refl _) hj

/-- If every character of the text satisfies `P` and the matcher fails at
every position whose first character satisfies `P`, the pass copies the
text unchanged. -/
theorem replaceAllF_id (m : Option Char → List Char → Option (List Char))
    (P : Char → Prop)
    (hP : ∀ (pv : Option Char) (c : Char) (r : List Char), P c → m pv (c :: r) = none) :
    ∀ (fuel : Nat) (pv : Option Char) (s : List Char), (∀ c ∈ s, P c) →
      replaceAllF m fuel pv s = s := by
  intro fuel
  induction fuel with
  | zero => intro pv s _; rfl
  | succ f ih =>
    intro pv s hs
    match s with
    | [] => rfl
    | c :: rest =>
      simp only [replaceAllF, hP pv c rest (hs c (by simp))]
      rw [ih (some c) rest fun x hx => hs x (by simp [hx])]

/-! ## Characters that no whole-match rule can start on -/

/-- Characters relevant to the idempotence and CJK claims on which every
whole-match rule fails immediately: the mask character `*` (code point
42), the separators `:` (58) and `：` (65306), and the CJK ideographs
(19968-40959). -/
def inertCh (c : Char) : Prop :=
  c.toNat = 42 ∨ c.toNat = 58 ∨ c.toNat = 65306 ∨
    (19968 ≤ c.toNat ∧ c.toNat ≤ 40959)

/-- Characters with different code points differ. -/
theorem ne_of_toNat {c d : Char} (h : c.toNat ≠ d.toNat) : c ≠ d :=
  fun he => h (he ▸ rfl)

/-- The first-character tests of the nine whole-match rules all fail on
an inert character. -/
theorem inert_head_facts (c : Char) (h : inertCh c) :
    lowerAscii c ≠ 'b' ∧ c ≠ 'e' ∧ c ≠ '0' ∧ c ≠ '(' ∧
      isUpperRE c = false ∧ isDigitRE c = false ∧ isLocalCh c = false := by
  simp only [inertCh] at h
  have hb : ('b' : Char).toNat = 98 := rfl
  have he : ('e' : Char).toNat = 101 := rfl
  have h0 : ('0' : Char).toNat = 48 := rfl
  have hp : ('(' : Char).toNat = 40 := rfl
  have hla : lowerAscii c = c := by
    simp only [lowerAscii]
    rw [if_neg]
    omega
  refine ⟨?_, ?_, ?_, ?_, ?_, ?_, ?_⟩
  · rw [hla]; exact ne_of_toNat (by omega)
  · exact ne_of_toNat (by omega)
  · exact ne_of_toNat (by omega)
  · exact ne_of_toNat (by omega)
  · simp only [isUpperRE, decide_eq_false_iff_not]; omega
  · simp only [isDigitRE, decide_eq_false_iff_not]; omega
  · simp only [isLocalCh, isAlphaRE, isUpperRE, isLowerRE, isDigitRE,
      Bool.or_eq_false_iff, decide_eq_false_iff_not]
    refine ⟨⟨⟨?_, ?_⟩, ?_⟩, ?_⟩
    · omega
    · omega
    · omega
    · rintro (rfl | rfl | rfl | rfl | rfl) <;> revert h <;> decide

/-- The Bearer rule fails at an inert character. -/
theorem bearerRest_inert (pv : Option Char) (c : Char) (r : List Char)
    (h : inertCh c) : bearerRest pv (c :: r) = none := by
  simp only [bearerRest, bearerKw, dropPfxCI]
  rw [if_neg (inert_head_facts c h).1]
  rfl

/-- The JWT rule fails at an inert character. -/
theorem jwtRest_inert (pv : Option Char) (c : Char) (r : List Char)
    (h : inertCh c) : jwtRest pv (c :: r) = none := by
  simp only [jwtRest, dropPfx]
  rw [if_neg (inert_head_facts c h).2.1]
  rfl

/-- The national-ID rule fails at an inert character. -/
theorem natIdRest_inert (pv : Option Char) (c : Char) (r : List Char)
    (h : inertCh c) : natIdRest pv (c :: r) = none := by
  simp only [natIdRest, dropCls]
  rw [(inert_head_facts c h).2.2.2.2.1]
  split <;> rfl

/-- The e-mail rule fails at an inert character. -/
theorem emailRest_inert (pv : Option Char) (c : Char) (r : List Char)
    (h : inertCh c) : emailRest pv (c :: r) = none := by
  simp only [emailRest, List.takeWhile_cons]
  rw [(inert_head_facts c h).2.2.2.2.2.2]
  split <;> rfl

/-- The mobile-phone rule fails at an inert character. -/
theorem mobileRest_inert (pv : Option Char) (c : Char) (r : List Char)
    (h : inertCh c) : mobileRest pv (c :: r) = none := by
  simp only [mobileRest, dropPfx]
  rw [if_neg (inert_head_facts c h).2.2.1]
  split <;> rfl

/-- The parenthesised-landline rule fails at an inert character. -/
theorem parenRest_inert (pv : Option Char) (c : Char) (r : List Char)
    (h : inertCh c) : parenRest pv (c :: r) = none := by
  simp only [parenRest, dropLit]
  rw [if_neg (inert_head_facts c h).2.2.2.1]
  rfl

/-- The dashed-landline rule fails at an inert character. -/
theorem dashRest_inert (pv : Option Char) (c : Char) (r : List Char)
    (h : inertCh c) : dashRest pv (c :: r) = none := by
  simp only [dashRest, dropLit]
  rw [if_neg (inert_head_facts c h).2.2.1]
  split <;> rfl

/-- The address rule fails at an inert character. -/
theorem addrRest_inert (pv : Option Char) (c : Char) (r : List Char)
    (h : inertCh c) : addrRest pv (c :: r) = none := by
  simp only [addrRest, List.takeWhile_cons]
  rw [(inert_head_facts c h).2.2.2.2.2.1]
  rfl

/-- The card rule fails at an inert character. -/
theorem cardRest_inert (pv : Option Char) (c : Char) (r : List Char)
    (h : inertCh c) : cardRest pv (c :: r) = none := by
  simp only [cardRest, dropNCls]
  rw [(inert_head_facts c h).2.2.2.2.2.1]
  split <;> rfl

/-- Every whole-match pass leaves a text of inert characters unchanged. -/
theorem runSimple_inert (t : List Char) (ht : ∀ c ∈ t, inertCh c) :
    runSimple simplePatterns t = t := by
  simp only [runSimple, simplePatterns, List.foldl_cons, List.foldl_nil]
  rw [show replaceAll bearerRest none t = t from
    replaceAllF_id _ inertCh bearerRest_inert _ _ _ ht]
  rw [show replaceAll jwtRest none t = t from
    replaceAllF_id _ inertCh jwtRest_inert _ _ _ ht]
  rw [show replaceAll natIdRest none t = t from
    replaceAllF_id _ inertCh natIdRest_inert _ _ _ ht]
  rw [show replaceAll emailRest none t = t from
    replaceAllF_id _ inertCh emailRest_inert _ _ _ ht]
  rw [show replaceAll mobileRest none t = t from
    replaceAllF_id _ inertCh mobileRest_inert _ _ _ ht]
  rw [show replaceAll parenRest none t = t from
    replaceAllF_id _ inertCh parenRest_inert _ _ _ ht]
  rw [show replaceAll dashRest none t = t from
    replaceAllF_id _ inertCh dashRest_inert _ _ _ ht]
  rw [show replaceAll addrRest none t = t from
    replaceAllF_id _ inertCh addrRest_inert _ _ _ ht]
  rw [show replaceAll cardRest none t = t from
    replaceAllF_id _ inertCh cardRest_inert _ _ _ ht]

/-- The name pattern cannot start on the mask character (no keyword
starts with `*`). -/
theorem nameMatch_star (r : List Char) : nameMatch ('*' :: r) = none := rfl

/-- If the name pattern fails at every position whose first character
satisfies `P` and every character of the text satisfies `P`, the name
pass copies the text unchanged. -/
theorem replaceNameF_id (P : Char → Prop)
    (hP : ∀ (c : Char) (r : List Char), P c → nameMatch (c :: r) = none) :
    ∀ (fuel : Nat) (s : List Char), (∀ c ∈ s, P c) → replaceNameF fuel s = s := by
  intro fuel
  induction fuel with
  | zero => intro s _; rfl
  | succ f ih =>
    intro s hs
    match s with
    | [] => rfl
    | c :: rest =>
      simp only [replaceNameF, hP c rest (hs c (by simp))]
      rw [ih rest fun x hx => hs x (by simp [hx])]

/-- C4 (amended): no rule's pattern matches anywhere inside a run of mask
characters, so a text consisting solely of mask characters is a fixed
point of `MaskPII`.  (The unrestricted idempotence of the original claim
fails: see the counterexample, where a mask character adjacent to
surviving text creates an ASCII word boundary that lets the national-ID
rule fire on a second application.) -/
theorem mask_runs_are_fixed (n : Nat) :
    maskPIIList (List.replicate n '*') = List.replicate n '*' := by
  have hin : ∀ c ∈ List.replicate n '*', inertCh c := by
    intro c hc
    rw [List.eq_of_mem_replicate hc]
    exact Or.inl rfl
  simp only [maskPIIList]
  rw [runSimple_inert _ hin]
  exact replaceNameF_id (fun c => c = '*') (fun c r hc => hc ▸ nameMatch_star r) _ _
    fun c hc => List.eq_of_mem_replicate hc

/-! ## Structure of the anchored-capture name rule -/

/-- `takeWhile` over a split whose left part satisfies `p` and whose
right part starts with a failing character returns the left part. -/
theorem takeWhile_append_all (p : Char → Bool) (a b : List Char)
    (ha : ∀ c ∈ a, p c = true) (hb : ∀ c, b.head? = some c → p c = false) :
    (a ++ b).takeWhile p = a ∧ (a ++ b).dropWhile p = b := by
  induction a with
  | nil =>
    simp only [List.nil_append]
    match b with
    | [] => exact ⟨rfl, rfl⟩
    | c :: r =>
      rw [List.takeWhile_cons, List.dropWhile_cons, hb c rfl]
      exact ⟨rfl, rfl⟩
  | cons a0 a' ih =>
    have hrec := ih fun c hc => ha c (by simp [hc])
    simp only [List.cons_append, List.takeWhile_cons, List.dropWhile_cons,
      ha a0 (by simp), if_pos]
    rw [hrec.1, hrec.2]
    exact ⟨rfl, rfl⟩

/-- A successful literal-prefix consumption decomposes the input. -/
theorem dropPfx_some_decomp :
    ∀ (as s r : List Char), dropPfx as s = some r → s = as ++ r := by
  intro as
  induction as with
  | nil =>
    intro s r h
    simp only [dropPfx, Option.some.injEq] at h
    rw [h]
    rfl
  | cons a as' ih =>
    intro s r h
    match s with
    | [] => exact absurd h (by simp [dropPfx])
    | c :: cs =>
      simp only [dropPfx] at h
      by_cases hc : c = a
      · rw [if_pos hc] at h
        rw [hc, List.cons_append]
        rw [← ih cs r h]
      · rw [if_neg hc] at h
        exact absurd h (by simp)

/-- A successful keyword alternation strips one of the five keywords;
the keyword has 2 or 3 characters and re-running the alternation on the
keyword followed by anything strips exactly the keyword again. -/
theorem kwAlt_some_decomp (s r1 : List Char) (h : kwAlt s = some r1) :
    ∃ kw : List Char, s = kw ++ r1 ∧ 2 ≤ kw.length ∧ kw.length ≤ 3 ∧
      (∀ c ∈ kw, isCJKch c = true) ∧ ∀ x, kwAlt (kw ++ x) = some x := by
  simp only [kwAlt] at h
  cases h1 : dropPfx ['姓', '名'] s with
  | some r =>
    rw [h1] at h
    simp only [Option.orElse, Option.some.injEq] at h
    exact ⟨['姓', '名'], by rw [← h]; exact dropPfx_some_decomp _ _ _ h1,
      by decide, by decide, by decide, fun x => rfl⟩
  | none =>
    rw [h1] at h
    simp only [Option.orElse] at h
    cases h2 : dropPfx ['申', '請', '人'] s with
    | some r =>
      rw [h2] at h
      simp only [Option.orElse, Option.some.injEq] at h
      exact ⟨['申', '請', '人'], by rw [← h]; exact dropPfx_some_decomp _ _ _ h2,
        by decide, by decide, by decide, fun x => rfl⟩
    | none =>
      rw [h2] at h
      simp only [Option.orElse] at h
      cases h3 : dropPfx ['使', '用', '者'] s with
      | some r =>
        rw [h3] at h
        simp only [Option.orElse, Option.some.injEq] at h
        exact ⟨['使', '用', '者'], by rw [← h]; exact dropPfx_some_decomp _ _ _ h3,
          by decide, by decide, by decide, fun x => rfl⟩
      | none =>
        rw [h3] at h
        simp only [Option.orElse] at h
        cases h4 : dropPfx ['客', '戶'] s with
        | some r =>
          rw [h4] at h
          simp only [Option.orElse, Option.some.injEq] at h
          exact ⟨['客', '戶'], by rw [← h]; exact dropPfx_some_decomp _ _ _ h4,
            by decide, by decide, by decide, fun x => rfl⟩
        | none =>
          rw [h4] at h
          simp only [Option.orElse] at h
          exact ⟨['名', '字'], dropPfx_some_decomp _ _ _ h,
            by decide, by decide, by decide, fun x => rfl⟩

/-- A CJK ideograph is not an RE2 whitespace character. -/
theorem isCJKch_not_space (c : Char) (h : isCJKch c = true) : isSpaceRE c = false := by
  simp only [isCJKch, decide_eq_true_eq] at h
  simp only [isSpaceRE, decide_eq_false_iff_not]
  rintro (rfl | rfl | rfl | rfl | rfl) <;> revert h <;> decide

/-- A CJK ideograph is neither the full-width nor the ASCII colon. -/
theorem isCJKch_not_colon (c : Char) (h : isCJKch c = true) :
    decide (c = '：' ∨ c = ':') = false := by
  simp only [isCJKch, decide_eq_true_eq] at h
  simp only [decide_eq_false_iff_not]
  rintro (rfl | rfl) <;> revert h <;> decide

/-- Computing the name pattern on a text of the decomposed shape
keyword, separator, space run, CJK run, non-CJK rest: group 1 covers the
keyword, separator and spaces, group 2 greedily takes up to four of the
ideographs. -/
theorem nameMatch_build (kw : List Char) (c0 : Char) (sp cjFull rest0 : List Char)
    (hkw : ∀ x, kwAlt (kw ++ x) = some x)
    (hc0 : c0 = '：' ∨ c0 = ':')
    (hsp : ∀ c ∈ sp, isSpaceRE c = true)
    (hcj : ∀ c ∈ cjFull, isCJKch c = true)
    (hcjn : 2 ≤ cjFull.length)
    (hrest : ∀ c, rest0.head? = some c → isCJKch c = false) :
    nameMatch (kw ++ c0 :: (sp ++ (cjFull ++ rest0))) =
      some (kw.length + 1 + sp.length, min cjFull.length 4) := by
  have hbS : ∀ c, (cjFull ++ rest0).head? = some c → isSpaceRE c = false := by
    intro c hc
    match cjFull, hcjn with
    | f0 :: f', _ =>
      simp only [List.cons_append, List.head?_cons, Option.some.injEq] at hc
      rw [← hc]
      exact isCJKch_not_space f0 (hcj f0 (by simp))
  have htw := takeWhile_append_all isSpaceRE sp (cjFull ++ rest0) hsp hbS
  have hcw := takeWhile_append_all isCJKch cjFull rest0 hcj hrest
  have hcond : decide (c0 = '：' ∨ c0 = ':') = true := by
    rcases hc0 with rfl | rfl <;> decide
  simp only [nameMatch, hkw, Option.some_bind, dropCls, hcond, if_true]
  rw [htw.1, htw.2, hcw.1]
  rw [if_neg (by omega)]
  simp only [Option.some.injEq, Prod.mk.injEq]
  constructor
  · simp only [List.length_append, List.length_cons]
    omega
  · trivial

/-- Every element of a `takeWhile` satisfies the predicate. -/
theorem mem_takeWhile_sat (p : Char → Bool) (l : List Char) :
    ∀ c ∈ l.takeWhile p, p c = true := by
  induction l with
  | nil => simp
  | cons a l' ih =>
    rw [List.takeWhile_cons]
    by_cases ha : p a
    · rw [if_pos ha]
      intro c hc
      rcases List.mem_cons.mp hc with rfl | hc
      · exact ha
      · exact ih c hc
    · rw [if_neg ha]
      simp

/-- The head of a `dropWhile` fails the predicate. -/
theorem head_dropWhile_fails (p : Char → Bool) (l : List Char) :
    ∀ c, (l.dropWhile p).head? = some c → p c = false := by
  intro c hc
  have hw := List.head?_dropWhile_not p l
  rw [hc] at hw
  exact hw

/-- A successful name-pattern match decomposes the text into keyword,
separator, space run, maximal CJK run and non-CJK rest, with group 1
covering keyword, separator and spaces and group 2 at most four of the
at least two ideographs. -/
theorem nameMatch_decomp (s : List Char) (p m : Nat) (h : nameMatch s = some (p, m)) :
    ∃ (kw : List Char) (c0 : Char) (sp cjFull rest0 : List Char),
      s = kw ++ c0 :: (sp ++ (cjFull ++ rest0)) ∧
      (∀ x, kwAlt (kw ++ x) = some x) ∧
      (c0 = '：' ∨ c0 = ':') ∧
      (∀ c ∈ sp, isSpaceRE c = true) ∧
      (∀ c ∈ cjFull, isCJKch c = true) ∧
      2 ≤ cjFull.length ∧
      (∀ c, rest0.head? = some c → isCJKch c = false) ∧
      p = kw.length + 1 + sp.length ∧ m = min cjFull.length 4 := by
  cases hk : kwAlt s with
  | none => rw [nameMatch, hk] at h; exact absurd h (by simp)
  | some r1 =>
    obtain ⟨kw, hs1, _, _, _, hkwAll⟩ := kwAlt_some_decomp s r1 hk
    rw [nameMatch, hk, Option.some_bind] at h
    match r1, hs1 with
    | [], hs1 => rw [dropCls] at h; exact absurd h (by simp)
    | c0 :: r2, hs1 =>
      rw [dropCls] at h
      cases hcol : decide (c0 = '：' ∨ c0 = ':') with
      | false => rw [hcol] at h; exact absurd h (by simp)
      | true =>
        rw [hcol] at h
        simp only [if_true, Option.some_bind] at h
        by_cases hn : (List.takeWhile isCJKch (List.dropWhile isSpaceRE r2)).length < 2
        · rw [if_pos hn] at h
          exact absurd h (by simp)
        · rw [if_neg hn] at h
          simp only [Option.some.injEq, Prod.mk.injEq] at h
          refine ⟨kw, c0, r2.takeWhile isSpaceRE,
            (r2.dropWhile isSpaceRE).takeWhile isCJKch,
            (r2.dropWhile isSpaceRE).dropWhile isCJKch,
            ?_, hkwAll, of_decide_eq_true hcol,
            mem_takeWhile_sat _ _, mem_takeWhile_sat _ _, by omega,
            head_dropWhile_fails _ _, ?_, by omega⟩
          · rw [List.takeWhile_append_dropWhile, List.takeWhile_append_dropWhile]
            exact hs1
          · have hlen : s.length = kw.length + 1 + r2.length := by
              rw [hs1]
              simp only [List.length_append, List.length_cons]
              omega
            have hsp : (r2.takeWhile isSpaceRE).length ≤ r2.length := by
              conv_rhs => rw [← List.takeWhile_append_dropWhile isSpaceRE r2]
              rw [List.length_append]
              omega
            omega

/-- Group bounds of a successful name-pattern match: the name part has
2-4 code points and the whole match fits in the text. -/
theorem nameMatch_le (s : List Char) (p m : Nat) (h : nameMatch s = some (p, m)) :
    2 ≤ m ∧ m ≤ 4 ∧ p + m ≤ s.length := by
  obtain ⟨kw, c0, sp, cjFull, rest0, hs, _, _, _, _, hn, _, hp, hm⟩ :=
    nameMatch_decomp s p m h
  have hlen : s.length = kw.length + 1 + sp.length + cjFull.length + rest0.length := by
    rw [hs]
    simp only [List.length_append, List.length_cons]
    omega
  omega

/-- Re-running the name pattern on exactly the matched span reproduces
the same two capture groups (this is what `FindStringSubmatch` inside the
replacement closure computes). -/
theorem nameMatch_take (s : List Char) (p m : Nat) (h : nameMatch s = some (p, m)) :
    nameMatch (s.take (p + m)) = some (p, m) := by
  obtain ⟨kw, c0, sp, cjFull, rest0, hs, hkw, hc0, hsp, hcj, hn, _, hp, hm⟩ :=
    nameMatch_decomp s p m h
  have hm4 : m ≤ cjFull.length ∧ m ≤ 4 ∧ 2 ≤ m := by omega
  have htake : s.take (p + m) = kw ++ c0 :: (sp ++ (cjFull.take m ++ [])) := by
    rw [hs]
    rw [List.take_append_eq_append_take, List.take_of_length_le (by omega)]
    have h1 : p + m - kw.length = 1 + sp.length + m := by omega
    rw [h1]
    have h2 : 1 + sp.length + m = (sp.length + m) + 1 := by omega
    rw [h2]
    rw [List.take_succ_cons]
    rw [List.take_append_eq_append_take, List.take_of_length_le (by omega)]
    have h3 : sp.length + m - sp.length = m := by omega
    rw [h3]
    rw [List.take_append_of_le_length (by omega), List.append_nil]
  rw [htake]
  rw [nameMatch_build kw c0 sp (cjFull.take m) [] hkw hc0 hsp
    (fun c hc => hcj c (List.take_subset _ _ hc))
    (by rw [List.length_take]; omega)
    (by intro c hc; simp at hc)]
  simp only [Option.some.injEq, Prod.mk.injEq]
  rw [List.length_take]
  omega

/-- The replacement closure applied to exactly the matched span: the
first capture group (keyword, separator, spaces) is returned verbatim
and the name part becomes a run of `m` mask characters. -/
theorem nameRepl_exact (s : List Char) (p m : Nat) (h : nameMatch s = some (p, m)) :
    nameRepl (s.take (p + m)) = s.take p ++ List.replicate m '*' := by
  have hle := nameMatch_le s p m h
  simp only [nameRepl, nameMatch_take s p m h]
  rw [List.take_take, Nat.min_eq_left (Nat.le_add_right p m)]
  congr 1
  simp only [maskRunes]
  congr 1
  simp only [List.length_take, List.length_drop]
  omega

/-- The matched span of the name rule is nonempty and the replacement has
the same code-point count as the span. -/
theorem nameRepl_exact_length (s : List Char) (p m : Nat)
    (h : nameMatch s = some (p, m)) :
    (nameRepl (s.take (p + m))).length = p + m := by
  rw [nameRepl_exact s p m h]
  have hle := nameMatch_le s p m h
  simp only [List.length_append, List.length_take, List.length_replicate]
  omega

/-- The name pass preserves the code-point count of the text. -/
theorem replaceNameF_length :
    ∀ (fuel : Nat) (s : List Char), s.length ≤ fuel →
      (replaceNameF fuel s).length = s.length := by
  intro fuel
  induction fuel with
  | zero => intro s _; rfl
  | succ f ih =>
    intro s hs
    match s with
    | [] => rfl
    | c :: rest =>
      cases hm : nameMatch (c :: rest) with
      | none =>
        simp only [replaceNameF, hm, List.length_cons]
        rw [ih rest (by simp only [List.length_cons] at hs; omega)]
      | some pm =>
        obtain ⟨p, m⟩ := pm
        have hle := nameMatch_le _ _ _ hm
        simp only [replaceNameF, hm]
        rw [if_neg (by omega)]
        rw [List.length_append, nameRepl_exact_length _ _ _ hm]
        rw [ih _ (by simp only [List.length_drop, List.length_cons] at *; omega)]
        simp only [List.length_drop, List.length_cons] at *
        omega

/-- The name pass never unmasks a position holding the mask character. -/
theorem replaceNameF_star :
    ∀ (fuel : Nat) (s : List Char) (j : Nat), s.length ≤ fuel →
      s[j]? = some '*' → (replaceNameF fuel s)[j]? = some '*' := by
  intro fuel
  induction fuel with
  | zero => intro s j _ hj; exact hj
  | succ f ih =>
    intro s j hs hj
    match s with
    | [] => exact hj
    | c :: rest =>
      cases hm : nameMatch (c :: rest) with
      | none =>
        simp only [replaceNameF, hm]
        match j with
        | 0 => simpa using hj
        | j + 1 =>
          simp only [List.getElem?_cons_succ] at hj ⊢
          exact ih rest j (by simp only [List.length_cons] at hs; omega) hj
      | some pm =>
        obtain ⟨p, m⟩ := pm
        have hle := nameMatch_le _ _ _ hm
        simp only [replaceNameF, hm]
        rw [if_neg (by omega)]
        rw [nameRepl_exact _ _ _ hm]
        by_cases hjp : j < p
        · rw [List.getElem?_append_left (by
            simp only [List.length_append, List.length_take, List.length_replicate]
            omega)]
          rw [List.getElem?_append_left (by simp only [List.length_take]; omega)]
          rw [List.getElem?_take_of_lt hjp]
          exact hj
        · by_cases hjk : j < p + m
          · rw [List.getElem?_append_left (by
              simp only [List.length_append, List.length_take, List.length_replicate]
              omega)]
            rw [List.getElem?_append_right (by simp only [List.length_take]; omega)]
            rw [List.getElem?_replicate_of_lt (by simp only [List.length_take]; omega)]
          · rw [List.getElem?_append_right (by
              simp only [List.length_append, List.length_take, List.length_replicate]
              omega)]
            have hclen : (List.take p (c :: rest) ++ List.replicate m '*').length = p + m := by
              simp only [List.length_append, List.length_take, List.length_replicate]
              omega
            rw [hclen]
            have hdrop : ((c :: rest).drop (p + m))[j - (p + m)]? = some '*' := by
              rw [List.getElem?_drop, Nat.add_sub_cancel' (by omega)]
              exact hj
            exact ih _ _ (by simp only [List.length_drop, List.length_cons] at *; omega) hdrop

/-- `replaceName` preserves length. -/
theorem replaceName_length (s : List Char) : (replaceName s).length = s.length :=
  replaceNameF_length s.length s (Nat.le_refl _)

/-- `replaceName` never unmasks. -/
theorem replaceName_star (s : List Char) (j : Nat) (hj : s[j]? = some '*') :
    (replaceName s)[j]? = some '*' :=
  replaceNameF_star s.length s j (Nat.le_refl _) hj

/-- A sequence of whole-match passes preserves the code-point count. -/
theorem runSimple_length (rules : List (Option Char → List Char → Option (List Char))) :
    ∀ t : List Char, (runSimple rules t).length = t.length := by
  induction rules with
  | nil => intro t; rfl
  | cons r rs ih =>
    intro t
    simp only [runSimple, List.foldl_cons] at *
    rw [ih (replaceAll r none t), replaceAll_length]

/-- A sequence of whole-match passes never unmasks. -/
theorem runSimple_star (rules : List (Option Char → List Char → Option (List Char))) :
    ∀ (t : List Char) (j : Nat), t[j]? = some '*' →
      (runSimple rules t)[j]? = some '*' := by
  induction rules with
  | nil => intro t j hj; exact hj
  | cons r rs ih =>
    intro t j hj
    simp only [runSimple, List.foldl_cons] at *
    exact ih (replaceAll r none t) j (replaceAll_star r none t j hj)

/-- The full pipeline preserves the code-point count. -/
theorem maskPIIList_length (t : List Char) : (maskPIIList t).length = t.length := by
  rw [maskPIIList, replaceName_length, runSimple_length]

/-- The full pipeline never unmasks a masked position. -/
theorem maskPIIList_star (t : List Char) (j : Nat) (hj : t[j]? = some '*') :
    (maskPIIList t)[j]? = some '*' :=
  replaceName_star _ j (runSimple_star simplePatterns t j hj)

/-- C2: `maskRunes` produces only the mask character, one per code point
of the matched span (so every whole-match replacement is length-equal in
code points), it maps the empty span to the empty string, and
consequently the whole pipeline preserves the code-point count of every
input. -/
theorem mask_replacement_length :
    (∀ s : List Char, (maskRunes s).length = s.length) ∧
      (∀ s : List Char, ∀ c ∈ maskRunes s, c = '*') ∧
      maskRunes ([] : List Char) = [] ∧
      (∀ t : List Char, (maskPIIList t).length = t.length) :=
  ⟨fun s => by simp [maskRunes], fun _ _ hc => List.eq_of_mem_replicate hc, rfl,
    maskPIIList_length⟩

/-- C2 applied at concrete inputs. -/
theorem mask_replacement_length_witness :
    (maskRunes ['a', 'b']).length = 2 ∧ '*' = '*' ∧
      (maskPIIList "Email: user@example.com".data).length = 23 := by
  refine ⟨?_, mask_replacement_length.2.1 ['a'] '*' (by decide), ?_⟩
  · rw [mask_replacement_length.1 ['a', 'b']]
    decide
  · rw [mask_replacement_length.2.2.2 "Email: user@example.com".data]
    decide

/-- C8: frame property of the anchored-capture name rule.  For every
match, the replacement closure returns the preserved prefix (keyword,
separator and spaces, capture group 1) code-point-for-code-point
identical and replaces only the captured name by mask characters; when
the matched text cannot be decomposed into the two capture groups, the
closure degrades to masking the entire match.  Both branches are plain
total functions, so the rule never raises an error. -/
theorem name_rule_frame :
    (∀ (s : List Char) (p m : Nat), nameMatch s = some (p, m) →
        nameRepl (s.take (p + m)) = s.take p ++ List.replicate m '*') ∧
      ∀ l : List Char, nameMatch l = none → nameRepl l = List.replicate l.length '*' :=
  ⟨nameRepl_exact, fun l h => by simp [nameRepl, h, maskRunes]⟩

/-- C8 applied at concrete inputs: the match `姓名：歐美` decomposes into
prefix `姓名：` and name `歐美`, and a text the pattern does not match is
masked whole by the fallback branch. -/
theorem name_rule_frame_witness :
    nameRepl ("姓名：歐美".data.take (3 + 2)) =
        "姓名：歐美".data.take 3 ++ List.replicate 2 '*' ∧
      nameRepl ['x'] = List.replicate 1 '*' :=
  ⟨name_rule_frame.1 "姓名：歐美".data 3 2 (by decide),
    name_rule_frame.2 ['x'] (by decide)⟩

/-- The name pattern never matches a text of CJK ideographs only: the
required separator character is not an ideograph. -/
theorem nameMatch_none_all_cjk (s : List Char) (hall : ∀ c ∈ s, isCJKch c = true) :
    nameMatch s = none := by
  cases hk : kwAlt s with
  | none => rw [nameMatch, hk]; rfl
  | some r1 =>
    obtain ⟨kw, hs1, _, _, _, _⟩ := kwAlt_some_decomp s r1 hk
    rw [nameMatch, hk, Option.some_bind]
    match r1, hs1 with
    | [], _ => rfl
    | c :: r2, hs1 =>
      have hc : isCJKch c = true := hall c (by rw [hs1]; simp)
      simp [dropCls, isCJKch_not_colon c hc]

/-- If the name pattern fails at every suffix, the name pass is the
identity (any fuel). -/
theorem replaceNameF_id_suffix :
    ∀ (fuel : Nat) (s : List Char), (∀ i, nameMatch (s.drop i) = none) →
      replaceNameF fuel s = s := by
  intro fuel
  induction fuel with
  | zero => intro s _; rfl
  | succ f ih =>
    intro s hs
    match s with
    | [] => rfl
    | c :: rest =>
      have h0 := hs 0
      rw [List.drop_zero] at h0
      simp only [replaceNameF, h0]
      rw [ih rest fun i => by rw [← List.drop_succ_cons (n := i) (a := c)]; exact hs (i + 1)]

/-- Unfolding the first step of the name pass when the pattern matches at
the start of the text. -/
theorem replaceName_head_match (c : Char) (rest : List Char) (p m : Nat)
    (hm : nameMatch (c :: rest) = some (p, m)) :
    replaceName (c :: rest) =
      nameRepl ((c :: rest).take (p + m)) ++
        replaceNameF rest.length ((c :: rest).drop (p + m)) := by
  have hle := nameMatch_le _ _ _ hm
  rw [replaceName]
  simp only [List.length_cons, replaceNameF, hm]
  rw [if_neg (by omega)]

/-- C10: when a recognized keyword and separator are followed by a run of
more than four consecutive CJK ideographs, the greedy 2-4 capture masks
exactly the first four ideographs of the run and the remaining ideographs
survive unmasked. -/
theorem name_rule_greedy_four (kw : List Char) (c0 : Char) (r : List Char)
    (hkw : kw = ['姓', '名'] ∨ kw = ['申', '請', '人'] ∨ kw = ['使', '用', '者'] ∨
      kw = ['客', '戶'] ∨ kw = ['名', '字'])
    (hc0 : c0 = '：' ∨ c0 = ':')
    (hr : ∀ c ∈ r, isCJKch c = true)
    (hlen : 4 < r.length) :
    maskPIIList (kw ++ c0 :: r) =
      kw ++ c0 :: (List.replicate 4 '*' ++ r.drop 4) := by
  have hkwAll : ∀ x, kwAlt (kw ++ x) = some x := by
    rcases hkw with rfl | rfl | rfl | rfl | rfl <;> exact fun x => rfl
  have hkwCJK : ∀ c ∈ kw, isCJKch c = true := by
    rcases hkw with rfl | rfl | rfl | rfl | rfl <;> decide
  have hinert : ∀ c ∈ kw ++ c0 :: r, inertCh c := by
    intro c hc
    rcases List.mem_append.mp hc with hc | hc
    · have := hkwCJK c hc
      simp only [isCJKch, decide_eq_true_eq] at this
      exact Or.inr (Or.inr (Or.inr this))
    · rcases List.mem_cons.mp hc with rfl | hc
      · rcases hc0 with rfl | rfl
        · exact Or.inr (Or.inr (Or.inl rfl))
        · exact Or.inr (Or.inl rfl)
      · have := hr c hc
        simp only [isCJKch, decide_eq_true_eq] at this
        exact Or.inr (Or.inr (Or.inr this))
  have hm0 := nameMatch_build kw c0 [] r [] hkwAll hc0 (by simp) hr (by omega)
    (by intro c hc; simp at hc)
  rw [List.append_nil, List.nil_append, List.length_nil, Nat.add_zero,
    Nat.min_eq_right (by omega)] at hm0
  rw [maskPIIList, runSimple_inert _ hinert]
  match kw, hkwAll, hm0 with
  | k0 :: kw', hkwAll, hm0 =>
    rw [List.cons_append] at hm0 ⊢
    rw [replaceName_head_match _ _ _ _ hm0]
    have htk := nameRepl_exact _ _ _ hm0
    rw [htk]
    have hdrop : ((k0 :: (kw' ++ c0 :: r))).drop ((k0 :: kw').length + 1 + 4) = r.drop 4 := by
      rw [show ((k0 :: kw').length + 1 + 4) = (kw' ++ c0 :: r).length -
        ((kw' ++ c0 :: r).length - ((k0 :: kw').length + 4)) + 1 from by
          simp only [List.length_append, List.length_cons]; omega]
      rw [List.drop_succ_cons]
      rw [show ((kw' ++ c0 :: r).length - ((kw' ++ c0 :: r).length -
        ((k0 :: kw').length + 4))) = kw'.length + 1 + 4 from by
          simp only [List.length_append, List.length_cons]; omega]
      rw [List.drop_append_eq_append_drop]
      rw [List.drop_of_length_le (by omega), List.nil_append]
      rw [show kw'.length + 1 + 4 - kw'.length = 4 + 1 from by omega]
      rw [Nat.add_comm 4 1, List.drop_succ_cons]
    have htake : (k0 :: (kw' ++ c0 :: r)).take ((k0 :: kw').length + 1) =
        (k0 :: kw') ++ [c0] := by
      rw [show (k0 :: kw').length + 1 = (kw'.length + 1) + 1 from by
        simp only [List.length_cons]]
      rw [List.take_succ_cons, List.cons_append]
      congr 1
      rw [List.take_append_eq_append_take, List.take_of_length_le (by omega)]
      rw [show kw'.length + 1 - kw'.length = 1 from by omega]
      rfl
    rw [hdrop, htake]
    rw [replaceNameF_id_suffix _ _ fun i => by
      rw [List.drop_drop]
      exact nameMatch_none_all_cjk _ fun c hc => hr c (List.drop_subset _ _ hc)]
    simp only [List.cons_append, List.append_assoc, List.nil_append]

/-! ## The Bearer rule: leftmost match over the whole phrase -/

/-- The `(?i)Bearer` pattern has no word-boundary assertion, so its
matcher ignores the preceding character. -/
theorem bearerRest_prev (a b : Option Char) (s : List Char) :
    bearerRest a s = bearerRest b s := rfl

/-- If the matcher ignores the previous character, so does the pass. -/
theorem replaceAllF_prev_irrel (m : Option Char → List Char → Option (List Char))
    (hip : ∀ a b s, m a s = m b s) :
    ∀ (fuel : Nat) (pv pv2 : Option Char) (s : List Char),
      replaceAllF m fuel pv s = replaceAllF m fuel pv2 s := by
  intro fuel
  induction fuel with
  | zero => intro pv pv2 s; rfl
  | succ f ih =>
    intro pv pv2 s
    match s with
    | [] => rfl
    | c :: rest =>
      simp only [replaceAllF]
      rw [hip pv pv2 (c :: rest)]

/-- Unfolding one scan step when the matcher fails: copy one character. -/
theorem replaceAllF_cons_none (m : Option Char → List Char → Option (List Char))
    (f : Nat) (pv : Option Char) (c : Char) (q : List Char)
    (h : m pv (c :: q) = none) :
    replaceAllF m (f + 1) pv (c :: q) = c :: replaceAllF m f (some c) q := by
  simp only [replaceAllF, h]

/-- Unfolding one scan step when the matcher consumes a nonempty span:
mask the span and resume after it. -/
theorem replaceAllF_cons_some (m : Option Char → List Char → Option (List Char))
    (f : Nat) (pv : Option Char) (c : Char) (q r : List Char)
    (h : m pv (c :: q) = some r)
    (hn : (c :: q).length - r.length ≠ 0) :
    replaceAllF m (f + 1) pv (c :: q) =
      maskRunes ((c :: q).take ((c :: q).length - r.length)) ++
        replaceAllF m f ((c :: q).take ((c :: q).length - r.length)).getLast?
          ((c :: q).drop ((c :: q).length - r.length)) := by
  simp only [replaceAllF, h]
  rw [if_neg hn]

/-- A prefix at none of whose positions the (context-independent)
matcher fires is copied verbatim by the pass. -/
theorem replaceAllF_copy_pfx (m : Option Char → List Char → Option (List Char))
    (hip : ∀ a b s, m a s = m b s) :
    ∀ (xs ys : List Char) (f : Nat) (pv pv2 : Option Char),
      (∀ i, i < xs.length → m none ((xs ++ ys).drop i) = none) →
      replaceAllF m (xs.length + f) pv (xs ++ ys) = xs ++ replaceAllF m f pv2 ys := by
  intro xs
  induction xs with
  | nil =>
    intro ys f pv pv2 _
    simp only [List.length_nil, Nat.zero_add, List.nil_append]
    exact replaceAllF_prev_irrel m hip f pv pv2 ys
  | cons x xs' ih =>
    intro ys f pv pv2 h
    have hx : m pv (x :: (xs' ++ ys)) = none := by
      rw [hip pv none]
      have h0 := h 0 (by simp)
      simpa using h0
    rw [show (x :: xs').length + f = (xs'.length + f) + 1 from by
      simp only [List.length_cons]; omega]
    rw [List.cons_append]
    rw [replaceAllF_cons_none m (xs'.length + f) pv x (xs' ++ ys) hx]
    rw [ih ys f (some x) pv2 fun i hi => by
      have hi1 := h (i + 1) (by simp only [List.length_cons]; omega)
      simpa using hi1]
    rw [List.cons_append]

/-- Stripping a case-insensitive literal from itself (in any casing). -/
theorem dropPfxCI_map : ∀ (bw s : List Char),
    dropPfxCI (bw.map lowerAscii) (bw ++ s) = some s := by
  intro bw
  induction bw with
  | nil => intro s; rfl
  | cons b bw' ih =>
    intro s
    simp only [List.map_cons, List.cons_append, dropPfxCI, if_true]
    exact ih s

/-- The Bearer matcher fails where the case-insensitive literal fails. -/
theorem bearerRest_none_of_pfx (pv : Option Char) (s : List Char)
    (h : dropPfxCI bearerKw s = none) : bearerRest pv s = none := by
  simp [bearerRest, h]

/-- At the start of a well-formed phrase (any casing of `Bearer`, a
nonempty whitespace run, a nonempty non-whitespace token, then
whitespace or the end), the Bearer matcher consumes exactly the phrase. -/
theorem bearerRest_phrase (pv : Option Char) (bw w tok post : List Char)
    (hbw : bw.map lowerAscii = bearerKw)
    (hw : w ≠ []) (hwall : ∀ c ∈ w, isSpaceRE c = true)
    (htok : tok ≠ []) (htokall : ∀ c ∈ tok, isSpaceRE c = false)
    (hpost : ∀ c, post.head? = some c → isSpaceRE c = true) :
    bearerRest pv (bw ++ (w ++ (tok ++ post))) = some post := by
  have h1 : dropPfxCI bearerKw (bw ++ (w ++ (tok ++ post))) = some (w ++ (tok ++ post)) := by
    rw [← hbw]
    exact dropPfxCI_map bw _
  have hbS : ∀ c, (tok ++ post).head? = some c → isSpaceRE c = false := by
    match tok, htok with
    | t0 :: tok', _ =>
      intro c hc
      simp only [List.cons_append, List.head?_cons, Option.some.injEq] at hc
      rw [← hc]
      exact htokall t0 (by simp)
  have htw := takeWhile_append_all isSpaceRE w (tok ++ post) hwall hbS
  have htokB : ∀ c ∈ tok, (!isSpaceRE c) = true := by
    intro c hc
    rw [htokall c hc]
    rfl
  have hbT : ∀ c, post.head? = some c → (!isSpaceRE c) = false := by
    intro c hc
    rw [hpost c hc]
    rfl
  have htw2 := takeWhile_append_all (fun c => !isSpaceRE c) tok post htokB hbT
  simp only [bearerRest, h1, Option.some_bind]
  rw [htw.1, htw.2]
  rw [if_neg (by simp only [List.length_eq_zero]; exact hw)]
  rw [htw2.1, htw2.2]
  rw [if_neg (by simp only [List.length_eq_zero]; exact htok)]

/-- One step of the Bearer pass at the start of a well-formed phrase:
the first `|bw| + |w| + |tok|` positions of the output hold the mask
character. -/
theorem bearer_phrase_step (bw w tok post : List Char) (f : Nat) (pv : Option Char)
    (hbw : bw.map lowerAscii = bearerKw)
    (hw : w ≠ []) (hwall : ∀ c ∈ w, isSpaceRE c = true)
    (htok : tok ≠ []) (htokall : ∀ c ∈ tok, isSpaceRE c = false)
    (hpost : ∀ c, post.head? = some c → isSpaceRE c = true) :
    ∀ j, j < bw.length + w.length + tok.length →
      (replaceAllF bearerRest (f + 1) pv (bw ++ (w ++ (tok ++ post))))[j]? = some '*' := by
  have hblen : bw.length = 6 := by
    have hl := congrArg List.length hbw
    simpa using hl
  match bw, hblen, hbw with
  | b0 :: bw', hblen, hbw =>
    intro j hj
    have hm : bearerRest pv (b0 :: (bw' ++ (w ++ (tok ++ post)))) = some post := by
      have hph := bearerRest_phrase pv (b0 :: bw') w tok post hbw hw hwall htok htokall hpost
      rw [List.cons_append] at hph
      exact hph
    have hlen1 : (b0 :: (bw' ++ (w ++ (tok ++ post)))).length =
        (b0 :: bw').length + w.length + tok.length + post.length := by
      simp only [List.length_cons, List.length_append]
      omega
    have hn : (b0 :: (bw' ++ (w ++ (tok ++ post)))).length - post.length ≠ 0 := by
      simp only [List.length_cons] at *
      omega
    rw [List.cons_append]
    rw [replaceAllF_cons_some bearerRest f pv b0 (bw' ++ (w ++ (tok ++ post))) post hm hn]
    rw [List.getElem?_append_left (by
      simp only [maskRunes, List.length_replicate, List.length_take]
      simp only [List.length_cons, List.length_append] at *
      omega)]
    simp only [maskRunes]
    rw [List.getElem?_replicate_of_lt (by
      simp only [List.length_take]
      simp only [List.length_cons, List.length_append] at *
      omega)]

/-- Peeling the first rule off a sequence of whole-match passes. -/
theorem runSimple_cons (r : Option Char → List Char → Option (List Char))
    (rules : List (Option Char → List Char → Option (List Char))) (t : List Char) :
    runSimple (r :: rules) t = runSimple rules (replaceAll r none t) := by
  simp only [runSimple, List.foldl_cons]

/-- C1: a Bearer-prefixed token phrase is masked by `MaskPII` as one
single contiguous run of mask characters covering the whole phrase
(any casing of `Bearer`, the whitespace and the token), so no residual
unmasked `Bearer` literal remains there; the later passes — in
particular the standalone JWT rule — never touch the masked span (they
only ever write further mask characters), so nothing of the phrase is
re-masked or exposed.  The hypotheses pin the phrase down: `w` is the
maximal whitespace run and `tok` the maximal token (the next character
is whitespace or the end), and no case-insensitive `bearer` occurrence
starts before the phrase, so the leftmost-first scan matches exactly
there. -/
theorem bearer_phrase_masked (pre bw w tok post : List Char)
    (hbw : bw.map lowerAscii = bearerKw)
    (hw : w ≠ []) (hwall : ∀ c ∈ w, isSpaceRE c = true)
    (htok : tok ≠ []) (htokall : ∀ c ∈ tok, isSpaceRE c = false)
    (hpost : ∀ c, post.head? = some c → isSpaceRE c = true)
    (hpre : ∀ i, i < pre.length →
      dropPfxCI bearerKw ((pre ++ (bw ++ (w ++ (tok ++ post)))).drop i) = none) :
    ∀ j, pre.length ≤ j → j < pre.length + (bw.length + w.length + tok.length) →
      (maskPIIList (pre ++ (bw ++ (w ++ (tok ++ post)))))[j]? = some '*' := by
  intro j hj1 hj2
  have hblen : bw.length = 6 := by
    have hl := congrArg List.length hbw
    simpa using hl
  have hfuel : (pre ++ (bw ++ (w ++ (tok ++ post)))).length =
      pre.length + ((bw.length + w.length + tok.length + post.length - 1) + 1) := by
    simp only [List.length_append]
    omega
  have hA : (replaceAll bearerRest none (pre ++ (bw ++ (w ++ (tok ++ post)))))[j]?
      = some '*' := by
    rw [replaceAll, hfuel]
    rw [replaceAllF_copy_pfx bearerRest (fun _ _ _ => rfl) pre _ _ none none
      fun i hi => bearerRest_none_of_pfx none _ (hpre i hi)]
    rw [List.getElem?_append_right (by omega)]
    exact bearer_phrase_step bw w tok post _ none hbw hw hwall htok htokall hpost
      (j - pre.length) (by omega)
  have hforms : maskPIIList (pre ++ (bw ++ (w ++ (tok ++ post)))) =
      replaceName (runSimple [jwtRest, natIdRest, emailRest, mobileRest, parenRest,
        dashRest, addrRest, cardRest]
        (replaceAll bearerRest none (pre ++ (bw ++ (w ++ (tok ++ post)))))) := by
    simp only [maskPIIList, simplePatterns]
    rw [runSimple_cons]
  rw [hforms]
  exact replaceName_star _ j (runSimple_star _ _ j hA)

/-- C1 applied at a concrete input: in
`Authorization: Bearer abc.def` the position of the `B` of `Bearer`
(code-point index 15) holds the mask character in the output. -/
theorem bearer_phrase_masked_witness :
    (maskPIIList ("Authorization: ".data ++
      ("Bearer".data ++ ([' '] ++ ("abc.def".data ++ [])))))[15]? = some '*' :=
  bearer_phrase_masked "Authorization: ".data "Bearer".data [' '] "abc.def".data []
    (by decide) (by decide) (by decide) (by decide) (by decide)
    (by intro c hc; simp at hc) (by decide) 15 (by decide) (by decide)

/-- C10 applied at a concrete input: after `姓名：` a run of five
ideographs `歐美麗大王` is masked only in its first four ideographs. -/
theorem name_rule_greedy_four_witness :
    maskPIIList (['姓', '名'] ++ '：' :: "歐美麗大王".data) =
      ['姓', '名'] ++ '：' :: (List.replicate 4 '*' ++ "歐美麗大王".data.drop 4) :=
  name_rule_greedy_four ['姓', '名'] '：' "歐美麗大王".data
    (Or.inl rfl) (Or.inl rfl) (by decide) (by decide)
